import Mathlib

/-!
Verification of the `grouper` process-group supervisor (package `grouper` of
the ifrit fork under study).  The Go source is shallowly embedded: channels
become explicit event lists or oracles, goroutine nondeterminism becomes an
explicit choice parameter, and the engine event loop becomes a step function
over an explicit state record.  `panic` is modelled by `Option` (`none` =
abort).  Definitions are translated from the source files
`grouper/dynamic_group.go`, `grouper/exit_events.go`,
`grouper/static_strategies.go` and the three unnamed parts; components of the
repository that are referenced but whose source is absent (the sliding buffer
and the dynamic client internals) are modelled from the specification and
marked as such in their doc comments.
-/

namespace Grouper

/-- Opaque termination-signal tokens (`os.Signal` values are opaque to the
library; only identity matters). -/
abbrev Sig := Nat

/-- Member exit errors; `Option Err` models Go's nullable `error`
(`none` = nil). -/
abbrev Err := String

/-- `ExitEvent` from `exit_events.go`: the member's name and its
possibly-nil error.  The `Member` field is reduced to the member name, the
only part the engine and the controllers inspect. -/
structure ExitEv where
  name : String
  err : Option Err
deriving DecidableEq, Repr

/-- Events a per-member observer sends to the engine: an entrance event or an
exit event carrying the member's error (`dynamic_group.go`). -/
inductive MEvent where
  | entrance (name : String)
  | exitEv (name : String) (err : Option Err)
deriving DecidableEq, Repr

/-- `waitForEvents` (dynamic_group.go lines 132-161): the per-member observer
selects between the process's ready channel and its wait channel.
`readyFirst` records which select branch fired first; `waitErr` is the value
the process's wait channel eventually delivers (in the ready branch it is
received after the entrance send, in the wait branch it is the value that won
the select).  The result is the ordered list of sends the observer performs
on the entrance and exit channels. -/
def waitForEvents (member : String) (readyFirst : Bool) (waitErr : Option Err) :
    List MEvent :=
  if readyFirst then
    [MEvent.entrance member, MEvent.exitEv member waitErr]
  else
    [MEvent.entrance member, MEvent.exitEv member waitErr]

/-- `processElement` (dynamic_group.go lines 163-166): the insertion index and
the process handle (reduced to an opaque numeric id). -/
structure processElement where
  index : Nat
  process : Nat
deriving DecidableEq, Repr

/-- `processSet` (dynamic_group.go lines 174-179): the member map is embedded
as an association list from names to `processElement` (Go map iteration order
is arbitrary; `Signal` sorts when ordered, and no claim depends on the
unordered iteration order). -/
structure processSet where
  ordered : Bool
  count : Nat
  processes : List (String × processElement)
  shutdown : Option Sig
deriving DecidableEq, Repr

/-- `newProcessSet` (dynamic_group.go lines 181-186). -/
def newProcessSet (ordered : Bool) : processSet :=
  { ordered := ordered, count := 0, processes := [], shutdown := none }

/-- `processSet.Signaled` (dynamic_group.go lines 188-190). -/
def processSet.Signaled (g : processSet) : Bool :=
  g.shutdown.isSome

/-- `processSet.Length` (dynamic_group.go lines 212-214). -/
def processSet.Length (g : processSet) : Nat :=
  g.processes.length

/-- `processSet.Complete` (dynamic_group.go lines 216-218). -/
def processSet.Complete (g : processSet) : Bool :=
  g.processes.length == 0 && g.shutdown.isSome

/-- `processSet.Add` (dynamic_group.go lines 220-231).  Go panics on a
duplicate name (`member inserted twice`); the panic is modelled by `none`. -/
def processSet.Add (g : processSet) (name : String) (proc : Nat) :
    Option processSet :=
  if g.processes.any (fun p => p.1 == name) then
    none
  else
    some { g with
      processes := g.processes ++ [(name, ⟨g.count, proc⟩)],
      count := g.count + 1 }

/-- `processSet.Remove` (dynamic_group.go lines 233-235): `delete` on the map,
a no-op when the name is absent. -/
def processSet.Remove (g : processSet) (name : String) : processSet :=
  { g with processes := g.processes.filter (fun p => !(p.1 == name)) }

/-- Actions performed on child processes during shutdown, as they appear in
the source: `signal` is `p.process.Signal(sig)`; `waitChan` is the bare
statement `p.process.Wait()` (dynamic_group.go line 207), which obtains the
wait channel and discards it; `recvWait` is `<-p.Wait()` (a blocking receive
of the wait result, as written in the unnamed ordered-group part at line
104). -/
inductive SigAction where
  | signal (index : Nat) (sig : Sig)
  | waitChan (index : Nat)
  | recvWait (index : Nat)
deriving DecidableEq, Repr

/-- Insertion sort of process elements by descending `index`, embedding
`sort.Sort(pSlice)` with `Less(i, j) = p[i].index > p[j].index`
(dynamic_group.go lines 170-172, 201).  Since insertion indices are distinct,
every sorting algorithm satisfying this `Less` produces the same list. -/
def insertDesc (e : processElement) : List processElement → List processElement
  | [] => [e]
  | f :: rest =>
      if f.index ≤ e.index then e :: f :: rest
      else f :: insertDesc e rest

/-- See `insertDesc`. -/
def sortDesc : List processElement → List processElement
  | [] => []
  | e :: rest => insertDesc e (sortDesc rest)

/-- `processSet.Signal` (dynamic_group.go lines 192-210), as the ordered list
of actions performed on the children, paired with the updated set.  The slice
built from the map is sorted by descending index when the set is ordered;
then each process is sent the signal, and — when ordered — the source
executes the bare statement `p.process.Wait()`, which only obtains the wait
channel (there is no receive). -/
def processSet.Signal (g : processSet) (signal : Sig) :
    processSet × List SigAction :=
  let pSlice := g.processes.map (fun p => p.2)
  let pSlice := if g.ordered then sortDesc pSlice else pSlice
  ({ g with shutdown := some signal },
   pSlice.flatMap (fun p =>
     SigAction.signal p.index signal ::
       (if g.ordered then [SigAction.waitChan p.index] else [])))

/-- The last `n` elements of a list, in order.  Used to state the sliding
buffer's retention discipline. -/
def lastN (n : Nat) (l : List α) : List α :=
  l.drop (l.length - n)

/-- Modelled from the spec: the repository's `slidingBuffer` type is not
among the provided source files; §4.A specifies a fixed-capacity append-only
view where `append(x)` records `x`, evicting the eldest if at capacity, and
`range(f)` iterates the retained items in insertion order.  The buffer is
embedded as the list of retained items; this is its `Append`. -/
def slidingAppend (cap : Nat) (buf : List ExitEv) (e : ExitEv) : List ExitEv :=
  let b := buf ++ [e]
  b.drop (b.length - cap)

/-- A listener channel of the exit-event broadcaster, embedded as the list of
events delivered into it so far plus whether it has been closed. -/
structure BChan where
  delivered : List ExitEv
  closed : Bool
deriving DecidableEq, Repr

/-- `exitEventBroadcaster` (exit_events.go lines 19-24).  `chans` is the heap
of every channel ever returned by `Attach`, addressed by creation index;
`channels` is the registration slice (indices into `chans`), with `none`
embedding Go's nil-slice closed sentinel.  `buffer` is the sliding buffer's
retained contents (see `slidingAppend`). -/
structure BState where
  bufferSize : Nat
  buffer : List ExitEv
  channels : Option (List Nat)
  chans : List BChan
deriving DecidableEq, Repr

/-- `newExitEventBroadcaster` (exit_events.go lines 26-33). -/
def newExitEventBroadcaster (bufferSize : Nat) : BState :=
  { bufferSize := bufferSize, buffer := [], channels := some [], chans := [] }

/-- Deliver event `e` into the channel with id `id` (the send
`exitChan <- exit`). -/
def deliverOne (chans : List BChan) (id : Nat) (e : ExitEv) : List BChan :=
  match chans.get? id with
  | some c => chans.set id { c with delivered := c.delivered ++ [e] }
  | none => chans

/-- Deliver event `e` to every registered channel, in registration order
(the loop of exit_events.go lines 57-60). -/
def deliverAll (chans : List BChan) (ids : List Nat) (e : ExitEv) : List BChan :=
  ids.foldl (fun cs id => deliverOne cs id e) chans

/-- Mark the channel with id `id` closed (`close(channel)`). -/
def closeOne (chans : List BChan) (id : Nat) : List BChan :=
  match chans.get? id with
  | some c => chans.set id { c with closed := true }
  | none => chans

/-- Close every registered channel (the loop of exit_events.go lines 67-69). -/
def closeAllChans (chans : List BChan) (ids : List Nat) : List BChan :=
  ids.foldl closeOne chans

/-- `exitEventBroadcaster.Attach` (exit_events.go lines 35-50).  A fresh
channel receives a replay of the whole buffer in order; if the registration
slice is not the closed sentinel the channel is appended to it, otherwise the
channel is closed.  Returns the updated broadcaster and the new channel's
id. -/
def BState.Attach (b : BState) : BState × Nat :=
  let id := b.chans.length
  match b.channels with
  | some cs =>
      ({ b with chans := b.chans ++ [⟨b.buffer, false⟩],
                channels := some (cs ++ [id]) }, id)
  | none =>
      ({ b with chans := b.chans ++ [⟨b.buffer, true⟩] }, id)

/-- `exitEventBroadcaster.Broadcast` (exit_events.go lines 52-61): append to
the sliding buffer, then deliver to every registered channel. -/
def BState.Broadcast (b : BState) (e : ExitEv) : BState :=
  let buffer := slidingAppend b.bufferSize b.buffer e
  match b.channels with
  | some cs => { b with buffer := buffer, chans := deliverAll b.chans cs e }
  | none => { b with buffer := buffer }

/-- `exitEventBroadcaster.Close` (exit_events.go lines 63-71): close every
registered channel and set the registration slice to the nil sentinel.  When
already closed the range loop runs over the nil slice, closing nothing. -/
def BState.Close (b : BState) : BState :=
  match b.channels with
  | some cs => { b with chans := closeAllChans b.chans cs, channels := none }
  | none => { b with channels := none }

/-- An externally driven operation sequence on one broadcaster. -/
inductive BOp where
  | attach
  | broadcast (e : ExitEv)
  | closeB
deriving DecidableEq, Repr

/-- Apply one operation to a broadcaster (the state effect; an `Attach`
additionally returns the channel id `chans.length` at that point). -/
def applyBOp (b : BState) (op : BOp) : BState :=
  match op with
  | BOp.attach => b.Attach.1
  | BOp.broadcast e => b.Broadcast e
  | BOp.closeB => b.Close

/-- Run a sequence of operations on a fresh broadcaster of the given buffer
size. -/
def runB (size : Nat) (ops : List BOp) : BState :=
  ops.foldl applyBOp (newExitEventBroadcaster size)

/-- The events broadcast by an operation sequence, in order. -/
def bHistory (ops : List BOp) : List ExitEv :=
  ops.filterMap (fun op =>
    match op with
    | BOp.broadcast e => some e
    | _ => none)

/-- `serialInit` (static_strategies.go lines 126-143, identical in the
unnamed part at lines 42-59).  Per member the loop selects between sending on
the inserter and the close notifier; `chooseClosed i` records that at the
i-th iteration the select chose the fired close notifier (aborting).  After a
successful insert the loop receives the member's exit event from the exit
listener; `exitErr` is the member's wait result.  The result is the list of
(inserted member, observed exit error) pairs, in order; the loop returns
early when the close notifier wins the select or when an exit error is
non-nil. -/
def serialInit (members : List String) (exitErr : String → Option Err)
    (chooseClosed : Nat → Bool) : List (String × Option Err) :=
  match members with
  | [] => []
  | m :: rest =>
      if chooseClosed 0 then []
      else
        match exitErr m with
        | some e => [(m, some e)]
        | none =>
            (m, none) ::
              serialInit rest exitErr (fun i => chooseClosed (i + 1))

/-- `orderedGroup.orderedStart` (unnamed part at lines 54-71).  Per member
the loop selects between the inserter and the fired close notifier
(`chooseClosed`, as in `serialInit`), then blocks on the entrance listener.
The result is the list of inserted members plus whether the loop aborted
early on the close notifier (when it did not abort, the source then calls
`client.Close()`).  The loop consults no exit listener. -/
def orderedStart (members : List String) (chooseClosed : Nat → Bool) :
    List String × Bool :=
  match members with
  | [] => ([], false)
  | m :: rest =>
      if chooseClosed 0 then ([], true)
      else
        let r := orderedStart rest (fun i => chooseClosed (i + 1))
        (m :: r.1, r.2)

/-- The three ways the startup select of `orderedGroup.orderedStrategy`
(static_strategies.go lines 77-89) can resolve at one iteration: the insert
is sent; an exit event arrives on the exit listener; the close notifier
fires. -/
inductive OChoice where
  | ins
  | exitArrives (e : ExitEv)
  | closedFires
deriving DecidableEq, Repr

/-- The startup loop of `orderedGroup.orderedStrategy` (static_strategies.go
lines 77-89).  Per member the select resolves per `choice`; on an arriving
exit event the loop appends it to the exit trace and returns (aborting the
startup); on the close notifier it returns with the trace as is; otherwise it
inserts, waits for the entrance event, and continues.  The result is
(inserted members, startup exit trace, aborted early). -/
def orderedStrategyStart (members : List String) (choice : Nat → OChoice) :
    List String × List ExitEv × Bool :=
  match members with
  | [] => ([], [], false)
  | m :: rest =>
      match choice 0 with
      | OChoice.closedFires => ([], [], true)
      | OChoice.exitArrives e => ([], [e], true)
      | OChoice.ins =>
          let r := orderedStrategyStart rest (fun i => choice (i + 1))
          (m :: r.1, r.2.1, r.2.2)

/-- `parallelGroup.stop` (unnamed part at lines 122-166).  `errTrace` is the
trace accumulated before `stop` was called; `stopExits` is the sequence of
exit events the `reflect.Select` loop observes, one per live pool member, in
selection order (the `Signal` sends do not affect the return value).
`errOccurred` starts as `len(errTrace) > 0`; each observed exit is appended
to the trace and a non-nil error sets `errOccurred`.  The loop terminates
only after one receive per select case, so with no live member the zero-case
select never proceeds and `stop` never returns: that is modelled by `none`.
`some (some t)` is a non-nil `ErrorTrace` return, `some none` a nil
return. -/
def parallelStop (errTrace : List ExitEv) (stopExits : List ExitEv) :
    Option (Option (List ExitEv)) :=
  if stopExits.isEmpty then none else
    let errOccurred := decide (0 < errTrace.length)
    let r := stopExits.foldl
      (fun (acc : List ExitEv × Bool) ev =>
        (acc.1 ++ [ev], acc.2 || ev.err.isSome))
      (errTrace, errOccurred)
    some (if r.2 then some r.1 else none)

/-- The construction parameters of `dynamicGroup` that its `Run` loop reads
(dynamic_group.go lines 23-28): the pool capacity and the optional
configured termination signal. -/
structure GConfig where
  poolSize : Nat
  signal : Option Sig
deriving DecidableEq, Repr

/-- Lifecycle position of one tracked process's observer: `entering` until
the engine has received its entrance event, `running` until the engine has
received its exit event.  `waitForEvents` sends entrance before exit on
unbuffered channels, so the engine receives them in that order. -/
inductive Phase where
  | entering
  | running
deriving DecidableEq, Repr

/-- One entry of the engine's process set, with the phase of its observer. -/
structure PEntry where
  name : String
  idx : Nat
  phase : Phase
deriving DecidableEq, Repr

/-- The state of `dynamicGroup.Run` (dynamic_group.go lines 58-130) between
select iterations.  `insertActive` embeds `insertEvents != nil`,
`notifierLive` embeds `closeNotifier != nil`, `entranceActive` embeds
`entranceEvents != nil`, and `done` records that the loop has returned.
`clientClosed` is the dynamic client's closed flag (its close notifier is a
channel closed by `client.Close()`).  `admitted`, `entLog` and `exLog` record
the names admitted to the process set and the entrance and exit broadcasts,
in order. -/
structure EState where
  procs : List PEntry
  count : Nat
  shutdown : Option Sig
  invoking : Nat
  insertActive : Bool
  clientClosed : Bool
  notifierLive : Bool
  entranceActive : Bool
  entranceClosed : Bool
  exitClosed : Bool
  admitted : List String
  entLog : List String
  exLog : List ExitEv
  done : Bool
deriving DecidableEq, Repr

/-- The state at the top of `Run`'s loop (dynamic_group.go lines 58-66). -/
def initEState : EState :=
  { procs := [], count := 0, shutdown := none, invoking := 0,
    insertActive := true, clientClosed := false, notifierLive := true,
    entranceActive := true, entranceClosed := false, exitClosed := false,
    admitted := [], entLog := [], exLog := [], done := false }

/-- One resolution of the engine's select, or an environment action.
`signal` is a receive on the caller's signals channel; `closeNotify` is the
receive of the fired close notifier; `externalClose` is `client.Close()`
invoked by a controller or other client holder (an environment step, not a
select case); `insert`/`insertClosed` are the inserter receive with
`ok = true`/`ok = false`; `entrance` and `exitEv` are receives from the
per-member observers. -/
inductive GEvent where
  | signal (s : Sig)
  | closeNotify
  | externalClose
  | insert (name : String)
  | insertClosed
  | entrance (name : String)
  | exitEv (name : String) (err : Option Err)
deriving DecidableEq, Repr

/-- Modelled from the spec: the dynamic client's source file is not among the
provided files.  §4.D specifies `close()` as "signals the engine that no more
members will be inserted" and `closeNotifier()` as a channel that closes when
`close()` has been called; accordingly `insertEventListener()` yields a live
insert source only while the client is not closed, and a disabled one
afterwards (no further member can arrive through it). -/
def insertEventListener (clientClosed : Bool) : Bool :=
  !clientClosed

/-- Set the phase of the entry named `name` to `running`. -/
def markRunning (procs : List PEntry) (name : String) : List PEntry :=
  procs.map (fun p => if p.name == name then { p with phase := Phase.running } else p)

/-- Whether `procs` has an entry named `name` in phase `ph`. -/
def hasPhase (procs : List PEntry) (name : String) (ph : Phase) : Bool :=
  procs.any (fun p => p.name == name && p.phase == ph)

/-- One iteration of `dynamicGroup.Run`'s select (dynamic_group.go lines
68-129), as a function of the resolved event.  Events whose guarding channel
is disabled (nil) or whose sender cannot be at the corresponding program
point (an entrance or exit for a member in the wrong phase, a close-notifier
receive before the client closed) cannot be selected in the source and leave
the state unchanged.  The `Add` panic on a duplicate name is `none`.  After
the loop has returned (`done`), no further iteration runs. -/
def step (cfg : GConfig) (s : EState) (e : GEvent) : Option EState :=
  if s.done then some s else
  match e with
  | GEvent.signal sig =>
      -- processes.Signal(shutdown); p.client.Close()
      some { s with shutdown := some sig, clientClosed := true }
  | GEvent.externalClose =>
      some { s with clientClosed := true }
  | GEvent.closeNotify =>
      if s.clientClosed && s.notifierLive then
        let t := { s with notifierLive := false, insertActive := false }
        if t.procs.length == 0 then
          some { t with done := true, entranceClosed := true, exitClosed := true }
        else if t.invoking == 0 then
          some { t with entranceClosed := true }
        else
          some t
      else some s
  | GEvent.insert name =>
      if s.insertActive then
        if s.procs.any (fun p => p.name == name) then none
        else
          let procs := s.procs ++ [⟨name, s.count, Phase.entering⟩]
          some { s with
            procs := procs,
            count := s.count + 1,
            invoking := s.invoking + 1,
            insertActive := !(procs.length == cfg.poolSize),
            admitted := s.admitted ++ [name] }
      else some s
  | GEvent.insertClosed =>
      if s.insertActive then
        some { s with clientClosed := true, insertActive := false }
      else some s
  | GEvent.entrance name =>
      if s.entranceActive && hasPhase s.procs name Phase.entering then
        let t := { s with
          invoking := s.invoking - 1,
          procs := markRunning s.procs name,
          entLog := s.entLog ++ [name] }
        if !t.notifierLive && t.invoking == 0 then
          some { t with entranceClosed := true, entranceActive := false }
        else
          some t
      else some s
  | GEvent.exitEv name err =>
      if hasPhase s.procs name Phase.running then
        let t := { s with
          procs := s.procs.filter (fun p => !(p.name == name)),
          exLog := s.exLog ++ [⟨name, err⟩] }
        let t :=
          if !t.shutdown.isSome && cfg.signal.isSome then
            { t with shutdown := cfg.signal, clientClosed := true,
                     insertActive := false }
          else t
        if (t.procs.length == 0 && t.shutdown.isSome) ||
           (t.procs.length == 0 && !t.insertActive) then
          some { t with done := true, entranceClosed := true, exitClosed := true }
        else if !t.shutdown.isSome then
          some { t with insertActive := insertEventListener t.clientClosed }
        else
          some t
      else some s

/-- Run the engine over a sequence of resolved events. -/
def runE (cfg : GConfig) (es : List GEvent) : Option EState :=
  es.foldlM (step cfg) initEState

/-- Whether a shutdown action is a blocking receive of a wait result. -/
def isRecvWait : SigAction → Bool
  | SigAction.recvWait _ => true
  | _ => false

/-- A concrete ordered process set holding two processes, inserted at indices
0 and 1. -/
def gOrderedPair : processSet :=
  { ordered := true, count := 2,
    processes := [("a", ⟨0, 10⟩), ("b", ⟨1, 11⟩)], shutdown := none }

/-- A concrete select-resolution for `orderedStrategyStart`: the first
iteration inserts, the second observes an exit event; the close notifier
never wins. -/
def exChoice : Nat → OChoice := fun i =>
  if i = 1 then OChoice.exitArrives ⟨"A", some "boom"⟩ else OChoice.ins

/-- The least iteration index below `n` at which the oracle chooses the
close-notifier branch, if any. -/
def firstClosed : Nat → (Nat → Bool) → Option Nat
  | 0, _ => none
  | n + 1, cl =>
      if cl 0 then some 0
      else (firstClosed n (fun i => cl (i + 1))).map (fun k => k + 1)

/-- The names carried by the insert events of an engine event sequence. -/
def insertNames (es : List GEvent) : List String :=
  es.filterMap (fun e =>
    match e with
    | GEvent.insert n => some n
    | _ => none)

/-- Concrete member exit errors for the serial-abort scenario: `B` fails,
everyone else exits cleanly. -/
def serialErrEx : String → Option Err := fun m =>
  if m = "B" then some "fail" else none

/-- A concrete broadcaster history: three broadcasts and no close. -/
def c5ops : List BOp :=
  [BOp.broadcast ⟨"a", none⟩, BOp.broadcast ⟨"b", none⟩,
   BOp.broadcast ⟨"c", some "boom"⟩]

/-- The engine state of a capacity-1 engine after one insert. -/
def c4s : EState :=
  (runE ⟨1, none⟩ [GEvent.insert "A"]).getD initEState

/-- The engine state reached after an external close and the processing of
the fired close notifier. -/
def c2sA : EState :=
  (runE ⟨2, none⟩ [GEvent.externalClose, GEvent.closeNotify]).getD initEState

/-- The state of `c2sA` after one further insert event (which the disabled
insert source ignores). -/
def c2sB : EState :=
  (runE ⟨2, none⟩
    ([GEvent.externalClose, GEvent.closeNotify] ++ [GEvent.insert "A"])).getD
    initEState

/-- C3: for every member observed by `waitForEvents`, in both protocol
branches (ready fires first, or wait fires first), exactly one entrance event
is emitted and then exactly one exit event carrying the member's observed
error: the emission sequence is literally entrance followed by exit. -/
theorem claim_C3_observer_protocol (member : String) (readyFirst : Bool)
    (waitErr : Option Err) :
    waitForEvents member readyFirst waitErr =
      [MEvent.entrance member, MEvent.exitEv member waitErr] := by
  unfold waitForEvents
  split <;> rfl

/-- C9: adding a name already in the process set is the `member inserted
twice` panic (modelled as `none`); adding a fresh name appends it at the next
insertion index; removing an absent name leaves the set unchanged. -/
theorem claim_C9_add_remove (g : processSet) (dup fresh : String) (proc : Nat)
    (hdup : g.processes.any (fun p => p.1 == dup) = true)
    (hfresh : g.processes.any (fun p => p.1 == fresh) = false) :
    g.Add dup proc = none ∧
    g.Add fresh proc = some { g with
      processes := g.processes ++ [(fresh, ⟨g.count, proc⟩)],
      count := g.count + 1 } ∧
    g.Remove fresh = g := by
  refine ⟨?_, ?_, ?_⟩
  · simp only [processSet.Add, hdup, if_true]
  · simp only [processSet.Add, hfresh, Bool.false_eq_true, if_false]
  · have h : g.processes.filter (fun p => !(p.1 == fresh)) = g.processes := by
      apply List.filter_eq_self.mpr
      intro a ha
      simp only [List.any_eq_false] at hfresh
      simpa using hfresh a ha
    cases g with
    | mk o c ps sh =>
        simp only [processSet.Remove] at *
        simp [h]

/-- C9 witness: the behaviour at a concrete set holding only `a`. -/
theorem claim_C9_add_remove_witness :
    gOrderedPair.Add "a" 7 = none ∧
    gOrderedPair.Add "c" 7 = some { gOrderedPair with
      processes := gOrderedPair.processes ++ [("c", ⟨gOrderedPair.count, 7⟩)],
      count := gOrderedPair.count + 1 } ∧
    gOrderedPair.Remove "c" = gOrderedPair :=
  claim_C9_add_remove gOrderedPair "a" "c" 7 (by decide) (by decide)

/-- C1: evaluation of `processSet.Signal` at the failing input (an ordered
set holding two processes), and the general fact that the shutdown action
trace never contains a blocking receive of a wait result.  The concrete
trace shows the signals are issued in descending insertion-index order
(index 1 before index 0), but between them the source only executes the bare
statement `p.process.Wait()` — obtaining the wait channel without receiving
from it — so the second process is signaled without awaiting the first
process's completion. -/
theorem claim_C1_signal_never_awaits :
    (gOrderedPair.Signal 5).2 =
      [SigAction.signal 1 5, SigAction.waitChan 1,
       SigAction.signal 0 5, SigAction.waitChan 0] ∧
    ∀ (g : processSet) (sig : Sig),
      (g.Signal sig).2.countP isRecvWait = 0 := by
  constructor
  · rfl
  · intro g sig
    rw [List.countP_eq_zero]
    intro a ha
    unfold processSet.Signal at ha
    simp only [List.mem_flatMap] at ha
    obtain ⟨p, _, hp⟩ := ha
    rcases List.mem_cons.mp hp with h | h
    · subst h; simp [isRecvWait]
    · split at h
      · rcases List.mem_singleton.mp h with rfl; simp [isRecvWait]
      · simp at h

/-- C8 counterexample: in the `orderedStrategy` variant of
static_strategies.go, the startup loop over members `[A, B]` aborts at the
second iteration because an exit event arrives, although the close notifier
never fires — refuting the claim that the startup loop is aborted only when
the close notifier fires. -/
theorem claim_C8_counterexample :
    orderedStrategyStart ["A", "B"] exChoice =
      (["A"], [⟨"A", some "boom"⟩], true) ∧
    ∀ i, exChoice i ≠ OChoice.closedFires := by
  constructor
  · rfl
  · intro i
    unfold exChoice
    split <;> simp

/-- C8 amended: for the `orderedStart` variant of the unnamed ordered-group
part, startup aborts exactly when the close-notifier branch wins some select
(at the least such iteration, with precisely the earlier members inserted);
the loop consults no exit listener, so exit events cannot terminate it.  In
the `orderedStrategy` variant of static_strategies.go, an exit event arriving
during startup also aborts the loop. -/
theorem claim_C8_startup_abort (ms : List String) (cl : Nat → Bool) :
    orderedStart ms cl =
      (match firstClosed ms.length cl with
       | none => (ms, false)
       | some k => (ms.take k, true)) := by
  induction ms generalizing cl with
  | nil => rfl
  | cons m rest ih =>
      unfold orderedStart firstClosed
      by_cases h : cl 0
      · simp [h]
      · simp only [h, if_false, Bool.false_eq_true]
        rw [ih (fun i => cl (i + 1))]
        cases hfc : firstClosed rest.length (fun i => cl (i + 1)) <;>
          simp [hfc, h]

/-- C7 counterexample: `parallelGroup.stop` invoked with the pre-stop trace
`[{A, nil}]` (a member that exited with a nil error before the group became
ready) and a single live member `B` that also exits with a nil error returns
the two-event trace as the group's result — a non-nil return although every
exit event in the trace carries a nil error, refuting the claim that such a
run returns nil. -/
theorem claim_C7_counterexample :
    parallelStop [⟨"A", none⟩] [⟨"B", none⟩] =
      some (some [⟨"A", none⟩, ⟨"B", none⟩]) ∧
    ∀ e ∈ [ExitEv.mk "A" none, ExitEv.mk "B" none], e.err = none := by
  constructor
  · rfl
  · decide

/-- C7 amended: when at least one member is live at stop time (otherwise the
zero-case select loop never returns), `parallelGroup.stop` — and hence the
group's `Run` — returns nil exactly when the pre-stop trace is empty and
every stop-phase exit carries a nil error; otherwise it returns the
concatenated trace.  In particular a non-empty pre-stop trace is returned as
the aggregate error even when all of its errors are nil. -/
theorem claim_C7_stop_result (errTrace stopExits : List ExitEv)
    (h : stopExits ≠ []) :
    parallelStop errTrace stopExits =
      some (if errTrace ≠ [] ∨ stopExits.any (fun e => e.err.isSome)
            then some (errTrace ++ stopExits) else none) := by
  have key : ∀ (xs : List ExitEv) (acc : List ExitEv) (b : Bool),
      xs.foldl (fun (acc : List ExitEv × Bool) ev =>
        (acc.1 ++ [ev], acc.2 || ev.err.isSome)) (acc, b) =
      (acc ++ xs, b || xs.any (fun e => e.err.isSome)) := by
    intro xs
    induction xs with
    | nil => intro acc b; simp
    | cons x rest ih =>
        intro acc b
        simp only [List.foldl_cons, ih, List.any_cons]
        simp [List.append_assoc, Bool.or_assoc]
  unfold parallelStop
  rw [if_neg (by simpa using h)]
  simp only [key]
  by_cases he : errTrace = []
  · subst he; simp
  · have hp : 0 < errTrace.length := List.length_pos.mpr he
    simp [he, hp]

/-- Appending to a buffer that retains the last `cap` of a history retains
the last `cap` of the extended history. -/
theorem slidingAppend_lastN (cap : Nat) (h : List ExitEv) (e : ExitEv) :
    slidingAppend cap (lastN cap h) e = lastN cap (h ++ [e]) := by
  unfold slidingAppend lastN
  by_cases hc : cap ≤ h.length
  · simp only [List.length_append, List.length_drop, List.length_singleton,
      List.drop_append_eq_append_drop, List.drop_drop]
    congr 1
    · congr 1
      omega
    · congr 1
      omega
  · have hd : h.length - cap = 0 := by omega
    simp [hd]

/-- A broadcast event is retained by the sliding buffer whenever the
capacity is at least one. -/
theorem mem_slidingAppend_self (cap : Nat) (buf : List ExitEv) (e : ExitEv)
    (h : 1 ≤ cap) :
    e ∈ slidingAppend cap buf e := by
  unfold slidingAppend
  show e ∈ (buf ++ [e]).drop ((buf ++ [e]).length - cap)
  rw [List.length_append, List.length_singleton,
    List.drop_append_eq_append_drop]
  have hz : buf.length + 1 - cap - buf.length = 0 := by omega
  rw [hz]
  simp

/-- Unfolding equation: fan-out delivery over an empty id list. -/
theorem deliverAll_nil (chans : List BChan) (e : ExitEv) :
    deliverAll chans [] e = chans := rfl

/-- Unfolding equation: fan-out delivery over a cons id list. -/
theorem deliverAll_cons (chans : List BChan) (j : Nat) (rest : List Nat)
    (e : ExitEv) :
    deliverAll chans (j :: rest) e = deliverAll (deliverOne chans j e) rest e :=
  rfl

/-- Delivery to channel `j` does not change channel `i` for `i ≠ j`. -/
theorem deliverOne_get_ne (chans : List BChan) (j : Nat) (e : ExitEv)
    (i : Nat) (hne : j ≠ i) :
    (deliverOne chans j e).get? i = chans.get? i := by
  unfold deliverOne
  cases chans.get? j with
  | none => rfl
  | some c => exact List.get?_set_ne _ _ hne

/-- Delivery preserves the number of channels. -/
theorem deliverOne_length (chans : List BChan) (j : Nat) (e : ExitEv) :
    (deliverOne chans j e).length = chans.length := by
  unfold deliverOne
  cases chans.get? j with
  | none => rfl
  | some c => simp

/-- Fan-out delivery preserves the number of channels. -/
theorem deliverAll_length (ids : List Nat) (chans : List BChan) (e : ExitEv) :
    (deliverAll chans ids e).length = chans.length := by
  induction ids generalizing chans with
  | nil => rfl
  | cons j rest ih =>
      rw [deliverAll_cons, ih, deliverOne_length]

/-- Fan-out delivery to ids not containing `i` does not change channel `i`. -/
theorem deliverAll_get_not_mem (ids : List Nat) (chans : List BChan)
    (e : ExitEv) (i : Nat) (h : i ∉ ids) :
    (deliverAll chans ids e).get? i = chans.get? i := by
  induction ids generalizing chans with
  | nil => rfl
  | cons j rest ih =>
      have hji : j ≠ i := by
        rintro rfl
        exact h (List.mem_cons_self _ _)
      rw [deliverAll_cons,
        ih (deliverOne chans j e) (fun hm => h (List.mem_cons_of_mem _ hm)),
        deliverOne_get_ne _ _ _ _ hji]

/-- Fan-out delivery appends the event to a registered channel: if `i`
occurs in the (duplicate-free) registration list and currently holds
`⟨D, false⟩`, after delivery it holds `⟨D ++ [e], false⟩`. -/
theorem deliverAll_get_mem (ids : List Nat) (chans : List BChan) (e : ExitEv)
    (i : Nat) (D : List ExitEv) (hmem : i ∈ ids) (hnd : ids.Nodup)
    (hcur : chans.get? i = some ⟨D, false⟩) :
    (deliverAll chans ids e).get? i = some ⟨D ++ [e], false⟩ := by
  induction ids generalizing chans with
  | nil => cases hmem
  | cons j rest ih =>
      rw [deliverAll_cons]
      rcases List.mem_cons.mp hmem with rfl | hm
      · have hnot : i ∉ rest := (List.nodup_cons.mp hnd).1
        rw [deliverAll_get_not_mem _ _ _ _ hnot]
        have hlt : i < chans.length := by
          by_contra hge
          rw [List.get?_eq_none.mpr (by omega)] at hcur
          cases hcur
        unfold deliverOne
        rw [hcur]
        exact List.get?_set_eq_of_lt _ hlt
      · have hji : j ≠ i := by
          rintro rfl
          exact (List.nodup_cons.mp hnd).1 hm
        exact ih (deliverOne chans j e) hm (List.nodup_cons.mp hnd).2
          (by rw [deliverOne_get_ne _ _ _ _ hji]; exact hcur)

/-- Invariant of a broadcaster run: the buffer size is the construction
parameter, the buffer holds the last `size` events of the broadcast history,
and the registration list is duplicate-free with every id in range. -/
theorem runB_fold_inv (size : Nat) :
    ∀ (ops : List BOp) (b : BState) (h : List ExitEv),
      b.bufferSize = size →
      b.buffer = lastN size h →
      (∀ cs, b.channels = some cs →
        (∀ i ∈ cs, i < b.chans.length) ∧ cs.Nodup) →
      (ops.foldl applyBOp b).bufferSize = size ∧
      (ops.foldl applyBOp b).buffer = lastN size (h ++ bHistory ops) ∧
      (∀ cs, (ops.foldl applyBOp b).channels = some cs →
        (∀ i ∈ cs, i < (ops.foldl applyBOp b).chans.length) ∧ cs.Nodup) := by
  intro ops
  induction ops with
  | nil =>
      intro b h h1 h2 h3
      simpa [bHistory] using ⟨h1, h2, h3⟩
  | cons op rest ih =>
      intro b h h1 h2 h3
      rw [List.foldl_cons]
      cases op with
      | attach =>
          have hstep :
              (applyBOp b BOp.attach).bufferSize = size ∧
              (applyBOp b BOp.attach).buffer = lastN size h ∧
              (∀ cs, (applyBOp b BOp.attach).channels = some cs →
                (∀ i ∈ cs, i < (applyBOp b BOp.attach).chans.length) ∧
                  cs.Nodup) := by
            unfold applyBOp BState.Attach
            cases hch : b.channels with
            | none => exact ⟨h1, h2, by intro cs hcs; cases hcs⟩
            | some cs0 =>
                refine ⟨h1, h2, ?_⟩
                intro cs hcs
                simp only [Option.some.injEq] at hcs
                subst hcs
                obtain ⟨hbound, hnd⟩ := h3 cs0 hch
                constructor
                · intro i hi
                  rcases List.mem_append.mp hi with hl | hr
                  · have := hbound i hl
                    simp only [List.length_append, List.length_singleton]
                    omega
                  · rcases List.mem_singleton.mp hr with rfl
                    simp only [List.length_append, List.length_singleton]
                    omega
                · refine List.Nodup.append hnd (List.nodup_singleton _) ?_
                  intro i hi hj
                  rcases List.mem_singleton.mp hj with rfl
                  exact absurd (hbound _ hi) (lt_irrefl _)
          have := ih (applyBOp b BOp.attach) h hstep.1 hstep.2.1 hstep.2.2
          simpa [bHistory] using this
      | broadcast e =>
          have hstep :
              (applyBOp b (BOp.broadcast e)).bufferSize = size ∧
              (applyBOp b (BOp.broadcast e)).buffer =
                lastN size (h ++ [e]) ∧
              (∀ cs, (applyBOp b (BOp.broadcast e)).channels = some cs →
                (∀ i ∈ cs, i <
                    (applyBOp b (BOp.broadcast e)).chans.length) ∧
                  cs.Nodup) := by
            unfold applyBOp BState.Broadcast
            cases hch : b.channels with
            | none =>
                refine ⟨h1, ?_, by intro cs hcs; cases hcs⟩
                show slidingAppend b.bufferSize b.buffer e = _
                rw [h1, h2, slidingAppend_lastN]
            | some cs0 =>
                refine ⟨h1, ?_, ?_⟩
                · show slidingAppend b.bufferSize b.buffer e = _
                  rw [h1, h2, slidingAppend_lastN]
                · intro cs hcs
                  simp only [Option.some.injEq] at hcs
                  subst hcs
                  obtain ⟨hbound, hnd⟩ := h3 cs0 hch
                  refine ⟨?_, hnd⟩
                  intro i hi
                  rw [deliverAll_length]
                  exact hbound i hi
          have := ih (applyBOp b (BOp.broadcast e)) (h ++ [e])
            hstep.1 hstep.2.1 hstep.2.2
          simpa [bHistory, List.append_assoc] using this
      | closeB =>
          have hstep :
              (applyBOp b BOp.closeB).bufferSize = size ∧
              (applyBOp b BOp.closeB).buffer = lastN size h ∧
              (∀ cs, (applyBOp b BOp.closeB).channels = some cs →
                (∀ i ∈ cs, i < (applyBOp b BOp.closeB).chans.length) ∧
                  cs.Nodup) := by
            unfold applyBOp BState.Close
            cases hch : b.channels with
            | none => exact ⟨h1, h2, by intro cs hcs; cases hcs⟩
            | some cs0 => exact ⟨h1, h2, by intro cs hcs; cases hcs⟩
          have := ih (applyBOp b BOp.closeB) h hstep.1 hstep.2.1 hstep.2.2
          simpa [bHistory] using this

/-- The invariant instantiated at a fresh broadcaster. -/
theorem runB_inv (size : Nat) (ops : List BOp) :
    (runB size ops).bufferSize = size ∧
    (runB size ops).buffer = lastN size (bHistory ops) ∧
    (∀ cs, (runB size ops).channels = some cs →
      (∀ i ∈ cs, i < (runB size ops).chans.length) ∧ cs.Nodup) := by
  have h3 : ∀ cs, (newExitEventBroadcaster size).channels = some cs →
      (∀ i ∈ cs, i < (newExitEventBroadcaster size).chans.length) ∧
        cs.Nodup := by
    intro cs hcs
    simp only [newExitEventBroadcaster, Option.some.injEq] at hcs
    subst hcs
    constructor
    · intro i hi
      cases hi
    · exact List.nodup_nil
  have := runB_fold_inv size ops (newExitEventBroadcaster size) []
    rfl (by simp [newExitEventBroadcaster, lastN]) h3
  simpa [runB] using this

/-- A channel registered with the broadcaster receives every later broadcast
while no close occurs: if channel `id` is registered, in range, and holds
`⟨D, false⟩`, then after any further close-free operation sequence it holds
`D` followed by exactly the events broadcast by that sequence. -/
theorem chan_receives_broadcasts (id : Nat) :
    ∀ (ops2 : List BOp) (b : BState) (D : List ExitEv),
      (∀ op ∈ ops2, op ≠ BOp.closeB) →
      (∀ cs, b.channels = some cs →
        (∀ i ∈ cs, i < b.chans.length) ∧ cs.Nodup) →
      (∃ cs, b.channels = some cs ∧ id ∈ cs) →
      b.chans.get? id = some ⟨D, false⟩ →
      (ops2.foldl applyBOp b).chans.get? id = some ⟨D ++ bHistory ops2, false⟩ := by
  intro ops2
  induction ops2 with
  | nil =>
      intro b D hnc hbnd hreg hcur
      simpa [bHistory] using hcur
  | cons op rest ih =>
      intro b D hnc hbnd hreg hcur
      obtain ⟨cs, hch, hmem⟩ := hreg
      obtain ⟨hbound, hnd⟩ := hbnd cs hch
      have hidlt : id < b.chans.length := hbound id hmem
      rw [List.foldl_cons]
      cases op with
      | attach =>
          have h1 : (applyBOp b BOp.attach).channels = some (cs ++ [b.chans.length]) := by
            unfold applyBOp BState.Attach
            rw [hch]
          have h2 : (applyBOp b BOp.attach).chans.get? id = some ⟨D, false⟩ := by
            unfold applyBOp BState.Attach
            rw [hch]
            show (b.chans ++ [_]).get? id = _
            rw [List.get?_append hidlt]
            exact hcur
          have h3 : ∀ cs2, (applyBOp b BOp.attach).channels = some cs2 →
              (∀ i ∈ cs2, i < (applyBOp b BOp.attach).chans.length) ∧
                cs2.Nodup := by
            intro cs2 hcs2
            rw [h1] at hcs2
            simp only [Option.some.injEq] at hcs2
            subst hcs2
            have hlen : (applyBOp b BOp.attach).chans.length =
                b.chans.length + 1 := by
              unfold applyBOp BState.Attach
              rw [hch]
              simp
            constructor
            · intro i hi
              rcases List.mem_append.mp hi with hl | hr
              · have := hbound i hl; omega
              · rcases List.mem_singleton.mp hr with rfl; omega
            · refine List.Nodup.append hnd (List.nodup_singleton _) ?_
              intro i hi hj
              rcases List.mem_singleton.mp hj with rfl
              exact absurd (hbound _ hi) (lt_irrefl _)
          have hrest := ih (applyBOp b BOp.attach) D
            (fun op hop => hnc op (List.mem_cons_of_mem _ hop)) h3
            ⟨cs ++ [b.chans.length], h1, List.mem_append_left _ hmem⟩ h2
          simpa [bHistory] using hrest
      | broadcast e =>
          have h1 : (applyBOp b (BOp.broadcast e)).channels = some cs := by
            unfold applyBOp BState.Broadcast
            rw [hch]
          have h2 : (applyBOp b (BOp.broadcast e)).chans.get? id =
              some ⟨D ++ [e], false⟩ := by
            unfold applyBOp BState.Broadcast
            rw [hch]
            exact deliverAll_get_mem cs b.chans e id D hmem hnd hcur
          have h3 : ∀ cs2, (applyBOp b (BOp.broadcast e)).channels = some cs2 →
              (∀ i ∈ cs2, i < (applyBOp b (BOp.broadcast e)).chans.length) ∧
                cs2.Nodup := by
            intro cs2 hcs2
            rw [h1] at hcs2
            simp only [Option.some.injEq] at hcs2
            subst hcs2
            have hlen : (applyBOp b (BOp.broadcast e)).chans.length =
                b.chans.length := by
              unfold applyBOp BState.Broadcast
              rw [hch]
              exact deliverAll_length _ _ _
            exact ⟨fun i hi => by rw [hlen]; exact hbound i hi, hnd⟩
          have hrest := ih (applyBOp b (BOp.broadcast e)) (D ++ [e])
            (fun op hop => hnc op (List.mem_cons_of_mem _ hop)) h3
            ⟨cs, h1, hmem⟩ h2
          simpa [bHistory, List.append_assoc] using hrest
      | closeB =>
          exact absurd rfl (hnc BOp.closeB (List.mem_cons_self _ _))

/-- The id `Attach` returns is the creation index of its fresh channel. -/
theorem attach_snd (b : BState) : b.Attach.2 = b.chans.length := by
  unfold BState.Attach
  cases b.channels <;> rfl

/-- The channel `Attach` returns starts holding exactly the buffer contents
(the replay), and is closed exactly when the broadcaster is closed. -/
theorem attach_get (b : BState) :
    (b.Attach.1).chans.get? b.chans.length =
      some ⟨b.buffer, b.channels.isNone⟩ := by
  unfold BState.Attach
  cases b.channels with
  | none => simp [List.get?_concat_length]
  | some cs => simp [List.get?_concat_length]

/-- On an open broadcaster, `Attach` appends the fresh id to the
registration slice. -/
theorem attach_channels (b : BState) (cs : List Nat)
    (h : b.channels = some cs) :
    (b.Attach.1).channels = some (cs ++ [b.chans.length]) := by
  unfold BState.Attach
  rw [h]

/-- `Attach` preserves the registration-list invariant. -/
theorem attach_inv (b : BState)
    (h3 : ∀ cs, b.channels = some cs →
      (∀ i ∈ cs, i < b.chans.length) ∧ cs.Nodup) :
    ∀ cs2, (b.Attach.1).channels = some cs2 →
      (∀ i ∈ cs2, i < (b.Attach.1).chans.length) ∧ cs2.Nodup := by
  intro cs2 hcs2
  cases hch : b.channels with
  | none =>
      unfold BState.Attach at hcs2
      rw [hch] at hcs2
      cases hcs2
  | some cs0 =>
      rw [attach_channels b cs0 hch] at hcs2
      simp only [Option.some.injEq] at hcs2
      subst hcs2
      obtain ⟨hbound, hnd⟩ := h3 cs0 hch
      have hlen : (b.Attach.1).chans.length = b.chans.length + 1 := by
        unfold BState.Attach
        rw [hch]
        simp
      constructor
      · intro i hi
        rw [hlen]
        rcases List.mem_append.mp hi with hl | hr
        · have := hbound i hl; omega
        · rcases List.mem_singleton.mp hr with rfl; omega
      · refine List.Nodup.append hnd (List.nodup_singleton _) ?_
        intro i hi hj
        rcases List.mem_singleton.mp hj with rfl
        exact absurd (hbound _ hi) (lt_irrefl _)

/-- C5: attach on any reachable broadcaster returns a channel that first
holds the replay — the (up to `eventBufferSize`) most recent events
broadcast before the attach, in original order — and is then registered for
all future broadcasts while the broadcaster stays open (its contents after
any further close-free operation sequence are the replay followed by exactly
the events that sequence broadcasts); a late attach on a closed broadcaster
returns the replay in an already-closed channel. -/
theorem claim_C5_attach_replay (size : Nat) (ops : List BOp) :
    ((runB size ops).Attach.1).chans.get? ((runB size ops).Attach.2) =
      some ⟨lastN size (bHistory ops), (runB size ops).channels.isNone⟩ ∧
    (∀ cs, (runB size ops).channels = some cs →
      ((runB size ops).Attach.1).channels =
        some (cs ++ [(runB size ops).Attach.2]) ∧
      ∀ (ops2 : List BOp), (∀ op ∈ ops2, op ≠ BOp.closeB) →
        (ops2.foldl applyBOp ((runB size ops).Attach.1)).chans.get?
            ((runB size ops).Attach.2) =
          some ⟨lastN size (bHistory ops) ++ bHistory ops2, false⟩) ∧
    ((runB size ops).channels = none →
      ((runB size ops).Attach.1).chans.get? ((runB size ops).Attach.2) =
        some ⟨lastN size (bHistory ops), true⟩) := by
  obtain ⟨hsize, hbuf, hinv⟩ := runB_inv size ops
  have hfst : ((runB size ops).Attach.1).chans.get?
      ((runB size ops).Attach.2) =
      some ⟨lastN size (bHistory ops), (runB size ops).channels.isNone⟩ := by
    rw [attach_snd, attach_get, hbuf]
  refine ⟨hfst, ?_, ?_⟩
  · intro cs hcs
    have hreg : ((runB size ops).Attach.1).channels =
        some (cs ++ [(runB size ops).Attach.2]) := by
      rw [attach_channels _ cs hcs, attach_snd]
    refine ⟨hreg, ?_⟩
    intro ops2 hnc
    rw [attach_snd]
    exact chan_receives_broadcasts (runB size ops).chans.length ops2
      ((runB size ops).Attach.1) (lastN size (bHistory ops)) hnc
      (attach_inv _ hinv)
      ⟨cs ++ [(runB size ops).chans.length], attach_channels _ cs hcs,
        List.mem_append_right _ (List.mem_singleton_self _)⟩
      (by rw [attach_get, hbuf, hcs]; rfl)
  · intro hnone
    rw [attach_snd, attach_get, hbuf, hnone]
    rfl

/-- C5 witness: buffer size 2, three prior broadcasts, one broadcast after
attach — the attached channel holds the last two prior events followed by
the new one. -/
theorem claim_C5_attach_replay_witness :
    ([BOp.broadcast ⟨"d", none⟩].foldl applyBOp
        ((runB 2 c5ops).Attach.1)).chans.get? ((runB 2 c5ops).Attach.2) =
      some ⟨lastN 2 (bHistory c5ops) ++ bHistory [BOp.broadcast ⟨"d", none⟩],
        false⟩ :=
  ((claim_C5_attach_replay 2 c5ops).2.1 [] rfl).2
    [BOp.broadcast ⟨"d", none⟩] (by decide)

/-- C10: `Close` leaves the nil sentinel in the registration slice, a second
`Close` is the identity on the already-closed state, a `Broadcast` after
`Close` changes no channel while still appending the event to the sliding
buffer, a later attach returns that buffer (which retains the post-close
event whenever the capacity is at least one) in an already-closed channel. -/
theorem claim_C10_close_broadcast (b : BState) (e : ExitEv) :
    b.Close.channels = none ∧
    b.Close.Close = b.Close ∧
    (b.Close.Broadcast e).chans = b.Close.chans ∧
    (b.Close.Broadcast e).buffer = slidingAppend b.bufferSize b.buffer e ∧
    ((b.Close.Broadcast e).Attach.1).chans.get?
        ((b.Close.Broadcast e).Attach.2) =
      some ⟨slidingAppend b.bufferSize b.buffer e, true⟩ ∧
    (1 ≤ b.bufferSize → e ∈ (b.Close.Broadcast e).buffer) := by
  obtain ⟨s, buf, ch, cs⟩ := b
  have hcl : (BState.mk s buf ch cs).Close.channels = none := by
    unfold BState.Close
    cases ch <;> rfl
  have hbb : ((BState.mk s buf ch cs).Close.Broadcast e).buffer =
      slidingAppend s buf e := by
    unfold BState.Close BState.Broadcast
    cases ch <;> rfl
  have hbc : ((BState.mk s buf ch cs).Close.Broadcast e).channels = none := by
    unfold BState.Close BState.Broadcast
    cases ch <;> rfl
  refine ⟨hcl, ?_, ?_, hbb, ?_, ?_⟩
  · unfold BState.Close
    cases ch <;> rfl
  · unfold BState.Close BState.Broadcast
    cases ch <;> rfl
  · rw [attach_snd, attach_get, hbb, hbc]
    rfl
  · intro hs
    rw [hbb]
    exact mem_slidingAppend_self s buf e hs

/-- C10 witness: at a fresh broadcaster of capacity 2, closed and then
broadcast to, the event survives in the buffer. -/
theorem claim_C10_close_broadcast_witness :
    ((newExitEventBroadcaster 2).Close.Broadcast ⟨"x", none⟩).buffer =
      slidingAppend 2 (newExitEventBroadcaster 2).buffer ⟨"x", none⟩ ∧
    ExitEv.mk "x" none ∈
      ((newExitEventBroadcaster 2).Close.Broadcast ⟨"x", none⟩).buffer := by
  have h := claim_C10_close_broadcast (newExitEventBroadcaster 2) ⟨"x", none⟩
  exact ⟨h.2.2.2.1, h.2.2.2.2.2 (by decide)⟩

/-- Generic invariant preservation along an engine run. -/
theorem runE_fold_inv (cfg : GConfig) (P : EState → Prop)
    (hstep : ∀ s e t, P s → step cfg s e = some t → P t) :
    ∀ (es : List GEvent) (s0 s : EState),
      P s0 → es.foldlM (step cfg) s0 = some s → P s := by
  intro es
  induction es with
  | nil =>
      intro s0 s h0 hr
      simp only [List.foldlM_nil] at hr
      cases hr
      exact h0
  | cons e rest ih =>
      intro s0 s h0 hr
      have hr2 : step cfg s0 e >>= (fun b2 => rest.foldlM (step cfg) b2) =
          some s := hr
      cases hstep0 : step cfg s0 e with
      | none => rw [hstep0] at hr2; cases hr2
      | some s1 =>
          rw [hstep0] at hr2
          exact ih s1 s (hstep s0 e s1 h0 hstep0) hr2

/-- Once the close notifier is gone (processed), the client is closed and
the insert source is disabled — and this state persists, with no further
admission. -/
theorem step_closed_inv (cfg : GConfig) (s : EState) (e : GEvent)
    (t : EState) (h : step cfg s e = some t)
    (hP : s.notifierLive = false →
      s.clientClosed = true ∧ s.insertActive = false) :
    t.notifierLive = false → t.clientClosed = true ∧ t.insertActive = false := by
  by_cases hd : s.done = true
  · simp only [step, if_pos hd] at h
    cases h
    exact hP
  · cases e with
    | signal sig =>
        simp only [step, if_neg hd] at h
        cases h
        intro hn
        exact ⟨rfl, (hP hn).2⟩
    | externalClose =>
        simp only [step, if_neg hd] at h
        cases h
        intro hn
        exact ⟨rfl, (hP hn).2⟩
    | closeNotify =>
        simp only [step, if_neg hd] at h
        split at h
        · rename_i hg
          have hcc : s.clientClosed = true := ((Bool.and_eq_true _ _).mp hg).1
          split at h
          · cases h
            intro hn
            exact ⟨hcc, rfl⟩
          · split at h
            · cases h
              intro hn
              exact ⟨hcc, rfl⟩
            · cases h
              intro hn
              exact ⟨hcc, rfl⟩
        · cases h
          exact hP
    | insert name =>
        simp only [step, if_neg hd] at h
        split at h
        · rename_i hact
          split at h
          · cases h
          · cases h
            intro hn
            have := (hP hn).2
            rw [this] at hact
            cases hact
        · cases h
          exact hP
    | insertClosed =>
        simp only [step, if_neg hd] at h
        split at h
        · cases h
          intro hn
          exact ⟨rfl, rfl⟩
        · cases h
          exact hP
    | entrance name =>
        simp only [step, if_neg hd] at h
        split at h
        · split at h
          · cases h
            intro hn
            exact hP hn
          · cases h
            intro hn
            exact hP hn
        · cases h
          exact hP
    | exitEv name err =>
        simp only [step, if_neg hd] at h
        split at h
        · split at h
          · rename_i hprop
            split at h
            · cases h
              intro hn
              exact ⟨rfl, rfl⟩
            · split at h
              · cases h
                intro hn
                exact ⟨rfl, rfl⟩
              · cases h
                intro hn
                exact ⟨rfl, rfl⟩
          · split at h
            · cases h
              intro hn
              exact hP hn
            · split at h
              · cases h
                intro hn
                refine ⟨(hP hn).1, ?_⟩
                show insertEventListener s.clientClosed = false
                rw [(hP hn).1]
                rfl
              · cases h
                intro hn
                exact hP hn
        · cases h
          exact hP

/-- After the close notifier has been processed (client closed, insert
source disabled), every further step keeps that state and admits nothing. -/
theorem step_frozen (cfg : GConfig) (s : EState) (e : GEvent) (t : EState)
    (h : step cfg s e = some t)
    (h1 : s.notifierLive = false) (h2 : s.clientClosed = true)
    (h3 : s.insertActive = false) :
    t.notifierLive = false ∧ t.clientClosed = true ∧ t.insertActive = false ∧
      t.admitted = s.admitted := by
  by_cases hd : s.done = true
  · simp only [step, if_pos hd] at h
    cases h
    exact ⟨h1, h2, h3, rfl⟩
  · cases e with
    | signal sig =>
        simp only [step, if_neg hd] at h
        cases h
        exact ⟨h1, rfl, h3, rfl⟩
    | externalClose =>
        simp only [step, if_neg hd] at h
        cases h
        exact ⟨h1, rfl, h3, rfl⟩
    | closeNotify =>
        simp only [step, if_neg hd] at h
        split at h
        · rename_i hg
          rw [h1, Bool.and_false] at hg
          cases hg
        · cases h
          exact ⟨h1, h2, h3, rfl⟩
    | insert name =>
        simp only [step, if_neg hd] at h
        split at h
        · rename_i hact
          rw [h3] at hact
          cases hact
        · cases h
          exact ⟨h1, h2, h3, rfl⟩
    | insertClosed =>
        simp only [step, if_neg hd] at h
        split at h
        · rename_i hact
          rw [h3] at hact
          cases hact
        · cases h
          exact ⟨h1, h2, h3, rfl⟩
    | entrance name =>
        simp only [step, if_neg hd] at h
        split at h
        · split at h
          · cases h
            exact ⟨h1, h2, h3, rfl⟩
          · cases h
            exact ⟨h1, h2, h3, rfl⟩
        · cases h
          exact ⟨h1, h2, h3, rfl⟩
    | exitEv name err =>
        simp only [step, if_neg hd] at h
        split at h
        · split at h
          · split at h
            · cases h
              exact ⟨h1, rfl, rfl, rfl⟩
            · split at h
              · cases h
                exact ⟨h1, rfl, rfl, rfl⟩
              · cases h
                exact ⟨h1, rfl, rfl, rfl⟩
          · split at h
            · cases h
              exact ⟨h1, h2, h3, rfl⟩
            · split at h
              · cases h
                refine ⟨h1, h2, ?_, rfl⟩
                show insertEventListener s.clientClosed = false
                rw [h2]
                rfl
              · cases h
                exact ⟨h1, h2, h3, rfl⟩
        · cases h
          exact ⟨h1, h2, h3, rfl⟩

/-- The loop returns only with an empty process set: `done` implies
`procs = []`, preserved by every step. -/
theorem step_done_inv (cfg : GConfig) (s : EState) (e : GEvent) (t : EState)
    (h : step cfg s e = some t)
    (hP : s.done = true → s.procs = []) :
    t.done = true → t.procs = [] := by
  by_cases hd : s.done = true
  · simp only [step, if_pos hd] at h
    cases h
    exact hP
  · cases e with
    | signal sig =>
        simp only [step, if_neg hd] at h
        cases h
        intro hdt
        exact absurd hdt hd
    | externalClose =>
        simp only [step, if_neg hd] at h
        cases h
        intro hdt
        exact absurd hdt hd
    | closeNotify =>
        simp only [step, if_neg hd] at h
        split at h
        · split at h
          · rename_i hlen
            cases h
            intro hdt
            simp only [beq_iff_eq] at hlen
            exact List.length_eq_zero.mp hlen
          · split at h
            · cases h
              intro hdt
              exact absurd hdt hd
            · cases h
              intro hdt
              exact absurd hdt hd
        · cases h
          exact hP
    | insert name =>
        simp only [step, if_neg hd] at h
        split at h
        · split at h
          · cases h
          · cases h
            intro hdt
            exact absurd hdt hd
        · cases h
          exact hP
    | insertClosed =>
        simp only [step, if_neg hd] at h
        split at h
        · cases h
          intro hdt
          exact absurd hdt hd
        · cases h
          exact hP
    | entrance name =>
        simp only [step, if_neg hd] at h
        split at h
        · split at h
          · cases h
            intro hdt
            exact absurd hdt hd
          · cases h
            intro hdt
            exact absurd hdt hd
        · cases h
          exact hP
    | exitEv name err =>
        simp only [step, if_neg hd] at h
        split at h
        · split at h
          · split at h
            · rename_i hret
              cases h
              intro hdt
              rcases Bool.or_eq_true _ _ |>.mp hret with hc | hc
              · simp only [Bool.and_eq_true, beq_iff_eq] at hc
                exact List.length_eq_zero.mp hc.1
              · simp only [Bool.and_eq_true, beq_iff_eq] at hc
                exact List.length_eq_zero.mp hc.1
            · split at h
              · cases h
                intro hdt
                exact absurd hdt hd
              · cases h
                intro hdt
                exact absurd hdt hd
          · split at h
            · rename_i hret
              cases h
              intro hdt
              rcases Bool.or_eq_true _ _ |>.mp hret with hc | hc
              · simp only [Bool.and_eq_true, beq_iff_eq] at hc
                exact List.length_eq_zero.mp hc.1
              · simp only [Bool.and_eq_true, beq_iff_eq] at hc
                exact List.length_eq_zero.mp hc.1
            · split at h
              · cases h
                intro hdt
                exact absurd hdt hd
              · cases h
                intro hdt
                exact absurd hdt hd
        · cases h
          exact hP

/-- C2 counterexample: with no configured termination signal, after the
engine processes an external termination signal (shutdown stored, client
closed — the engine has decided to stop), the insert source is still
enabled, and a member sent afterwards is admitted to the process set. -/
theorem claim_C2_counterexample :
    (runE ⟨2, none⟩ [GEvent.signal 0]).map
        (fun s => (s.shutdown, s.clientClosed, s.insertActive, s.admitted)) =
      some (some 0, true, true, []) ∧
    (runE ⟨2, none⟩ [GEvent.signal 0, GEvent.insert "B"]).map
        (fun s => s.admitted) = some ["B"] := by
  constructor <;> rfl

/-- C2 amended: once the engine has processed the close-notifier event, the
insert source is permanently disabled — the client stays closed, no member
is admitted by any further step — and whenever the loop returns the process
set is empty (every accepted member has been awaited to its exit).  An
external termination signal disables admission only indirectly: it closes
the client, and inserts racing ahead of the close-notifier event can still
be admitted (see the counterexample). -/
theorem claim_C2_insert_disabled (cfg : GConfig) (es more : List GEvent)
    (s t : EState) (h1 : runE cfg es = some s) (h2 : s.notifierLive = false)
    (h3 : runE cfg (es ++ more) = some t) :
    t.insertActive = false ∧ t.clientClosed = true ∧
      t.admitted = s.admitted ∧ (t.done = true → t.procs = []) := by
  have hmore : more.foldlM (step cfg) s = some t := by
    unfold runE at h1 h3
    rw [List.foldlM_append, h1] at h3
    exact h3
  have hcs : s.clientClosed = true ∧ s.insertActive = false := by
    have hinv := runE_fold_inv cfg
      (fun x => x.notifierLive = false →
        x.clientClosed = true ∧ x.insertActive = false)
      (fun a e b hPa hst => step_closed_inv cfg a e b hst hPa)
      es initEState s (fun hn => by simp [initEState] at hn) h1
    exact hinv h2
  have hfr := runE_fold_inv cfg
    (fun x => x.notifierLive = false ∧ x.clientClosed = true ∧
      x.insertActive = false ∧ x.admitted = s.admitted)
    (fun a e b hPa hst => by
      obtain ⟨p1, p2, p3, p4⟩ := hPa
      obtain ⟨q1, q2, q3, q4⟩ := step_frozen cfg a e b hst p1 p2 p3
      exact ⟨q1, q2, q3, by rw [q4, p4]⟩)
    more s t ⟨h2, hcs.1, hcs.2, rfl⟩ hmore
  have hdone := runE_fold_inv cfg (fun x => x.done = true → x.procs = [])
    (fun a e b hPa hst => step_done_inv cfg a e b hst hPa)
    (es ++ more) initEState t (fun hdt => by simp [initEState] at hdt) h3
  exact ⟨hfr.2.2.1, hfr.2.1, hfr.2.2.2, hdone⟩

/-- C2 witness: close the client, process the notifier, then try to insert
`A` — nothing is admitted and the frozen state persists. -/
theorem claim_C2_insert_disabled_witness :
    c2sB.insertActive = false ∧ c2sB.clientClosed = true ∧
      c2sB.admitted = c2sA.admitted ∧ (c2sB.done = true → c2sB.procs = []) :=
  claim_C2_insert_disabled ⟨2, none⟩
    [GEvent.externalClose, GEvent.closeNotify] [GEvent.insert "A"]
    c2sA c2sB rfl rfl rfl

/-- Marking an entry as running does not change the name sequence. -/
theorem markRunning_names (procs : List PEntry) (name : String) :
    (markRunning procs name).map (fun p => p.name) =
      procs.map (fun p => p.name) := by
  unfold markRunning
  rw [List.map_map]
  congr 1
  funext p
  simp only [Function.comp_apply]
  split <;> rfl

/-- Marking an entry as running does not change the set's size. -/
theorem markRunning_length (procs : List PEntry) (name : String) :
    (markRunning procs name).length = procs.length := by
  unfold markRunning
  rw [List.length_map]

/-- Removing a present name (the names being duplicate-free) shrinks the set
by exactly one. -/
theorem remove_length (procs : List PEntry) (name : String) (ph : Phase)
    (hnd : (procs.map (fun p => p.name)).Nodup)
    (hmem : hasPhase procs name ph = true) :
    (procs.filter (fun p => !(p.name == name))).length + 1 = procs.length := by
  induction procs with
  | nil => cases hmem
  | cons q rest ih =>
      simp only [List.map_cons, List.nodup_cons] at hnd
      by_cases hq : (q.name == name) = true
      · have hqn : q.name = name := beq_iff_eq.mp hq
        have hrest : rest.filter (fun p => !(p.name == name)) = rest := by
          apply List.filter_eq_self.mpr
          intro p hp
          have hpn : p.name ≠ name := by
            intro hcon
            apply hnd.1
            rw [hqn, ← hcon]
            exact List.mem_map_of_mem (fun x => x.name) hp
          simp [hpn]
        rw [List.filter_cons]
        simp only [hq, Bool.not_true, Bool.false_eq_true, if_false]
        rw [hrest]
        simp
      · have hm2 : hasPhase rest name ph = true := by
          unfold hasPhase at hmem ⊢
          simp only [List.any_cons, Bool.or_eq_true] at hmem
          rcases hmem with hq2 | hr
          · exact absurd ((Bool.and_eq_true _ _).mp hq2).1 hq
          · exact hr
        rw [List.filter_cons]
        simp only [hq, Bool.not_false, if_true]
        simp only [List.length_cons, List.length_cons]
        rw [Nat.add_right_comm]
        rw [ih hnd.2 hm2]

/-- Capacity invariant preservation: for a positive pool size, the process
set's names stay duplicate-free, its size stays at most the pool size, and
while the insert source is enabled the set is strictly below capacity. -/
theorem step_capacity (cfg : GConfig)
    (s : EState) (e : GEvent) (t : EState) (h : step cfg s e = some t)
    (hP : (s.procs.map (fun p => p.name)).Nodup ∧
      s.procs.length ≤ cfg.poolSize ∧
      (s.insertActive = true → s.procs.length < cfg.poolSize)) :
    (t.procs.map (fun p => p.name)).Nodup ∧
      t.procs.length ≤ cfg.poolSize ∧
      (t.insertActive = true → t.procs.length < cfg.poolSize) := by
  obtain ⟨hnd, hle, hlt⟩ := hP
  by_cases hd : s.done = true
  · simp only [step, if_pos hd] at h
    cases h
    exact ⟨hnd, hle, hlt⟩
  · cases e with
    | signal sig =>
        simp only [step, if_neg hd] at h
        cases h
        exact ⟨hnd, hle, hlt⟩
    | externalClose =>
        simp only [step, if_neg hd] at h
        cases h
        exact ⟨hnd, hle, hlt⟩
    | closeNotify =>
        simp only [step, if_neg hd] at h
        split at h
        · split at h
          · cases h
            exact ⟨hnd, hle, fun hact => by cases hact⟩
          · split at h
            · cases h
              exact ⟨hnd, hle, fun hact => by cases hact⟩
            · cases h
              exact ⟨hnd, hle, fun hact => by cases hact⟩
        · cases h
          exact ⟨hnd, hle, hlt⟩
    | insert name =>
        simp only [step, if_neg hd] at h
        split at h
        · rename_i hact
          split at h
          · cases h
          · rename_i hdup
            cases h
            have hnotin : name ∉ s.procs.map (fun p => p.name) := by
              intro hin
              apply hdup
              rw [List.any_eq_true]
              obtain ⟨p, hp, hpn⟩ := List.mem_map.mp hin
              exact ⟨p, hp, by simp [hpn]⟩
            have hlen : s.procs.length < cfg.poolSize := hlt hact
            refine ⟨?_, ?_, ?_⟩
            · show ((s.procs ++ [(⟨name, s.count, Phase.entering⟩ : PEntry)]).map
                (fun p => p.name)).Nodup
              rw [List.map_append]
              refine List.Nodup.append hnd (List.nodup_singleton _) ?_
              intro a ha hb
              rcases List.mem_singleton.mp hb with rfl
              exact hnotin ha
            · show (s.procs ++ [_]).length ≤ cfg.poolSize
              rw [List.length_append]
              simpa using hlen
            · intro hact2
              have hne : (s.procs ++
                  [(⟨name, s.count, Phase.entering⟩ : PEntry)]).length ≠
                  cfg.poolSize := by
                simpa using hact2
              have hle2 : (s.procs ++
                  [(⟨name, s.count, Phase.entering⟩ : PEntry)]).length =
                  s.procs.length + 1 := by simp
              show (s.procs ++
                [(⟨name, s.count, Phase.entering⟩ : PEntry)]).length <
                cfg.poolSize
              omega
        · cases h
          exact ⟨hnd, hle, hlt⟩
    | insertClosed =>
        simp only [step, if_neg hd] at h
        split at h
        · cases h
          exact ⟨hnd, hle, fun hact => by cases hact⟩
        · cases h
          exact ⟨hnd, hle, hlt⟩
    | entrance name =>
        simp only [step, if_neg hd] at h
        have hmk : ((markRunning s.procs name).map (fun p => p.name)).Nodup := by
          rw [markRunning_names]
          exact hnd
        split at h
        · split at h
          · cases h
            refine ⟨hmk, ?_, fun hact => ?_⟩
            · show (markRunning s.procs name).length ≤ cfg.poolSize
              rw [markRunning_length]
              exact hle
            · show (markRunning s.procs name).length < cfg.poolSize
              rw [markRunning_length]
              exact hlt hact
          · cases h
            refine ⟨hmk, ?_, fun hact => ?_⟩
            · show (markRunning s.procs name).length ≤ cfg.poolSize
              rw [markRunning_length]
              exact hle
            · show (markRunning s.procs name).length < cfg.poolSize
              rw [markRunning_length]
              exact hlt hact
        · cases h
          exact ⟨hnd, hle, hlt⟩
    | exitEv name err =>
        simp only [step, if_neg hd] at h
        split at h
        · rename_i hmem
          have hflt : ((s.procs.filter (fun p => !(p.name == name))).map
              (fun p => p.name)).Nodup :=
            List.Nodup.sublist (List.Sublist.map _ (List.filter_sublist _)) hnd
          have hlen : (s.procs.filter (fun p => !(p.name == name))).length + 1 =
              s.procs.length := remove_length s.procs name Phase.running hnd hmem
          have hlt2 : (s.procs.filter (fun p => !(p.name == name))).length <
              cfg.poolSize := by omega
          have hle3 : (s.procs.filter (fun p => !(p.name == name))).length ≤
              cfg.poolSize := by omega
          split at h
          · split at h
            · cases h
              exact ⟨hflt, hle3, fun hact => hlt2⟩
            · split at h
              · cases h
                exact ⟨hflt, hle3, fun hact => hlt2⟩
              · cases h
                exact ⟨hflt, hle3, fun hact => hlt2⟩
          · split at h
            · cases h
              exact ⟨hflt, hle3, fun hact => hlt2⟩
            · split at h
              · cases h
                exact ⟨hflt, hle3, fun hact => hlt2⟩
              · cases h
                exact ⟨hflt, hle3, fun hact => hlt2⟩
        · cases h
          exact ⟨hnd, hle, hlt⟩

/-- The insert source, once disabled, is set live again only by an exit
event (the capacity re-enable of the exit branch). -/
theorem step_reenable_only_exit (cfg : GConfig) (s : EState) (e : GEvent)
    (t : EState) (h : step cfg s e = some t) (h1 : s.insertActive = false)
    (h2 : t.insertActive = true) :
    ∃ name err, e = GEvent.exitEv name err := by
  by_cases hd : s.done = true
  · simp only [step, if_pos hd] at h
    cases h
    rw [h1] at h2
    cases h2
  · cases e with
    | signal sig =>
        simp only [step, if_neg hd] at h
        cases h
        rw [h1] at h2
        cases h2
    | externalClose =>
        simp only [step, if_neg hd] at h
        cases h
        rw [h1] at h2
        cases h2
    | closeNotify =>
        simp only [step, if_neg hd] at h
        split at h
        · split at h
          · cases h
            cases h2
          · split at h
            · cases h
              cases h2
            · cases h
              cases h2
        · cases h
          rw [h1] at h2
          cases h2
    | insert name =>
        simp only [step, if_neg hd] at h
        split at h
        · rename_i hact
          rw [h1] at hact
          cases hact
        · cases h
          rw [h1] at h2
          cases h2
    | insertClosed =>
        simp only [step, if_neg hd] at h
        split at h
        · rename_i hact
          rw [h1] at hact
          cases hact
        · cases h
          rw [h1] at h2
          cases h2
    | entrance name =>
        simp only [step, if_neg hd] at h
        split at h
        · split at h
          · cases h
            rw [h1] at h2
            cases h2
          · cases h
            rw [h1] at h2
            cases h2
        · cases h
          rw [h1] at h2
          cases h2
    | exitEv name err =>
        exact ⟨name, err, rfl⟩

/-- C4 counterexample: a dynamic engine constructed with capacity 0 admits a
member anyway — after one insert the process set is strictly larger than the
pool size, refuting the claim for every capacity. -/
theorem claim_C4_counterexample :
    (runE ⟨0, none⟩ [GEvent.insert "A"]).map
      (fun s => decide ((0 : Nat) < s.procs.length)) = some true := by
  rfl

/-- C4 amended: for every capacity of at least one, the process set never
exceeds the pool size along any engine run, while the insert source is
enabled the set is strictly below capacity (so the insert that fills the
pool disables the source), and a disabled insert source is set live again
only by an exit event. -/
theorem claim_C4_capacity (cfg : GConfig) (hpool : 1 ≤ cfg.poolSize)
    (es : List GEvent) (s : EState) (hr : runE cfg es = some s) :
    s.procs.length ≤ cfg.poolSize ∧
    (s.insertActive = true → s.procs.length < cfg.poolSize) ∧
    (∀ (x t : EState) (e : GEvent), step cfg x e = some t →
      x.insertActive = false → t.insertActive = true →
      ∃ name err, e = GEvent.exitEv name err) := by
  have hinv := runE_fold_inv cfg
    (fun x => (x.procs.map (fun p => p.name)).Nodup ∧
      x.procs.length ≤ cfg.poolSize ∧
      (x.insertActive = true → x.procs.length < cfg.poolSize))
    (fun a e b hPa hst => step_capacity cfg a e b hst hPa)
    es initEState s
    (by
      refine ⟨List.nodup_nil, ?_, fun hact => ?_⟩
      · show (0 : Nat) ≤ cfg.poolSize
        omega
      · show (0 : Nat) < cfg.poolSize
        omega)
    hr
  exact ⟨hinv.2.1, hinv.2.2,
    fun x t e hst hx ht => step_reenable_only_exit cfg x e t hst hx ht⟩

/-- C4 witness: capacity 1, one insert — the set is full (length one equals
the pool size) and the insert source is disabled. -/
theorem claim_C4_capacity_witness :
    c4s.procs.length ≤ (1 : Nat) ∧
      (c4s.insertActive = true → c4s.procs.length < 1) :=
  ⟨(claim_C4_capacity ⟨1, none⟩ (by decide) [GEvent.insert "A"] c4s rfl).1,
   (claim_C4_capacity ⟨1, none⟩ (by decide) [GEvent.insert "A"] c4s rfl).2.1⟩

/-- C7 witness for the amended statement: a non-empty pre-stop trace with an
error is returned concatenated with the stop-phase exits. -/
theorem claim_C7_stop_result_witness :
    parallelStop [] [⟨"B", some "x"⟩] =
      some (if ([] : List ExitEv) ≠ [] ∨
            [ExitEv.mk "B" (some "x")].any (fun e => e.err.isSome)
            then some (([] : List ExitEv) ++ [⟨"B", some "x"⟩]) else none) :=
  claim_C7_stop_result [] [⟨"B", some "x"⟩] (by simp)

/-- Every name in the process set or the entrance log was admitted,
preserved by every step. -/
theorem step_entlog (cfg : GConfig) (s : EState) (e : GEvent) (t : EState)
    (h : step cfg s e = some t)
    (hP : (∀ p ∈ s.procs, p.name ∈ s.admitted) ∧
      (∀ n ∈ s.entLog, n ∈ s.admitted)) :
    (∀ p ∈ t.procs, p.name ∈ t.admitted) ∧
      (∀ n ∈ t.entLog, n ∈ t.admitted) := by
  obtain ⟨hproc, hlog⟩ := hP
  by_cases hd : s.done = true
  · simp only [step, if_pos hd] at h
    cases h
    exact ⟨hproc, hlog⟩
  · cases e with
    | signal sig =>
        simp only [step, if_neg hd] at h
        cases h
        exact ⟨hproc, hlog⟩
    | externalClose =>
        simp only [step, if_neg hd] at h
        cases h
        exact ⟨hproc, hlog⟩
    | closeNotify =>
        simp only [step, if_neg hd] at h
        split at h
        · split at h
          · cases h
            exact ⟨hproc, hlog⟩
          · split at h
            · cases h
              exact ⟨hproc, hlog⟩
            · cases h
              exact ⟨hproc, hlog⟩
        · cases h
          exact ⟨hproc, hlog⟩
    | insert name =>
        simp only [step, if_neg hd] at h
        split at h
        · split at h
          · cases h
          · cases h
            constructor
            · intro p hp
              rcases List.mem_append.mp hp with hl | hr
              · exact List.mem_append_left _ (hproc p hl)
              · rcases List.mem_singleton.mp hr with rfl
                exact List.mem_append_right _ (List.mem_singleton_self _)
            · intro n hn
              exact List.mem_append_left _ (hlog n hn)
        · cases h
          exact ⟨hproc, hlog⟩
    | insertClosed =>
        simp only [step, if_neg hd] at h
        split at h
        · cases h
          exact ⟨hproc, hlog⟩
        · cases h
          exact ⟨hproc, hlog⟩
    | entrance name =>
        simp only [step, if_neg hd] at h
        have hmr : ∀ p, p ∈ markRunning s.procs name → p.name ∈ s.admitted := by
          intro p hp
          unfold markRunning at hp
          obtain ⟨q, hq, hqe⟩ := List.mem_map.mp hp
          have hqn : p.name = q.name := by
            subst hqe
            split <;> rfl
          rw [hqn]
          exact hproc q hq
        split at h
        · rename_i hg
          have hnm : name ∈ s.admitted := by
            have hhp : hasPhase s.procs name Phase.entering = true :=
              ((Bool.and_eq_true _ _).mp hg).2
            unfold hasPhase at hhp
            obtain ⟨p, hp, hpp⟩ := List.any_eq_true.mp hhp
            have := ((Bool.and_eq_true _ _).mp hpp).1
            rw [← beq_iff_eq.mp this]
            exact hproc p hp
          have hlog2 : ∀ n, n ∈ s.entLog ++ [name] → n ∈ s.admitted := by
            intro n hn
            rcases List.mem_append.mp hn with hl | hr
            · exact hlog n hl
            · rcases List.mem_singleton.mp hr with rfl
              exact hnm
          split at h
          · cases h
            exact ⟨hmr, hlog2⟩
          · cases h
            exact ⟨hmr, hlog2⟩
        · cases h
          exact ⟨hproc, hlog⟩
    | exitEv name err =>
        simp only [step, if_neg hd] at h
        have hflt : ∀ p, p ∈ s.procs.filter (fun q => !(q.name == name)) →
            p.name ∈ s.admitted :=
          fun p hp => hproc p (List.mem_of_mem_filter hp)
        split at h
        · split at h
          · split at h
            · cases h
              exact ⟨hflt, hlog⟩
            · split at h
              · cases h
                exact ⟨hflt, hlog⟩
              · cases h
                exact ⟨hflt, hlog⟩
          · split at h
            · cases h
              exact ⟨hflt, hlog⟩
            · split at h
              · cases h
                exact ⟨hflt, hlog⟩
              · cases h
                exact ⟨hflt, hlog⟩
        · cases h
          exact ⟨hproc, hlog⟩

/-- A step extends the admitted list only through an insert event of that
name. -/
theorem step_admitted (cfg : GConfig) (s : EState) (e : GEvent) (t : EState)
    (h : step cfg s e = some t) :
    ∀ n, n ∈ t.admitted → n ∈ s.admitted ∨ e = GEvent.insert n := by
  by_cases hd : s.done = true
  · simp only [step, if_pos hd] at h
    cases h
    exact fun n hn => Or.inl hn
  · cases e with
    | signal sig =>
        simp only [step, if_neg hd] at h
        cases h
        exact fun n hn => Or.inl hn
    | externalClose =>
        simp only [step, if_neg hd] at h
        cases h
        exact fun n hn => Or.inl hn
    | closeNotify =>
        simp only [step, if_neg hd] at h
        split at h
        · split at h
          · cases h
            exact fun n hn => Or.inl hn
          · split at h
            · cases h
              exact fun n hn => Or.inl hn
            · cases h
              exact fun n hn => Or.inl hn
        · cases h
          exact fun n hn => Or.inl hn
    | insert name =>
        simp only [step, if_neg hd] at h
        split at h
        · split at h
          · cases h
          · cases h
            intro n hn
            rcases List.mem_append.mp hn with hl | hr
            · exact Or.inl hl
            · rcases List.mem_singleton.mp hr with rfl
              exact Or.inr rfl
        · cases h
          exact fun n hn => Or.inl hn
    | insertClosed =>
        simp only [step, if_neg hd] at h
        split at h
        · cases h
          exact fun n hn => Or.inl hn
        · cases h
          exact fun n hn => Or.inl hn
    | entrance name =>
        simp only [step, if_neg hd] at h
        split at h
        · split at h
          · cases h
            exact fun n hn => Or.inl hn
          · cases h
            exact fun n hn => Or.inl hn
        · cases h
          exact fun n hn => Or.inl hn
    | exitEv name err =>
        simp only [step, if_neg hd] at h
        split at h
        · split at h
          · split at h
            · cases h
              exact fun n hn => Or.inl hn
            · split at h
              · cases h
                exact fun n hn => Or.inl hn
              · cases h
                exact fun n hn => Or.inl hn
          · split at h
            · cases h
              exact fun n hn => Or.inl hn
            · split at h
              · cases h
                exact fun n hn => Or.inl hn
              · cases h
                exact fun n hn => Or.inl hn
        · cases h
          exact fun n hn => Or.inl hn

/-- Every admitted name stems from an insert event of the run. -/
theorem admitted_from_inserts (cfg : GConfig) :
    ∀ (es : List GEvent) (s0 s : EState),
      es.foldlM (step cfg) s0 = some s →
      ∀ n, n ∈ s.admitted → n ∈ s0.admitted ∨ n ∈ insertNames es := by
  intro es
  induction es with
  | nil =>
      intro s0 s hr n hn
      simp only [List.foldlM_nil] at hr
      cases hr
      exact Or.inl hn
  | cons e rest ih =>
      intro s0 s hr n hn
      have hr2 : step cfg s0 e >>= (fun b2 => rest.foldlM (step cfg) b2) =
          some s := hr
      cases hstep0 : step cfg s0 e with
      | none => rw [hstep0] at hr2; cases hr2
      | some s1 =>
          rw [hstep0] at hr2
          rcases ih s1 s hr2 n hn with hl | hr3
          · rcases step_admitted cfg s0 e s1 hstep0 n hl with ha | hb
            · exact Or.inl ha
            · subst hb
              refine Or.inr ?_
              unfold insertNames
              simp
          · refine Or.inr ?_
            unfold insertNames at hr3 ⊢
            simp only [List.filterMap_cons]
            cases e <;> simp_all

/-- Characterization of the serial pipeline when the close notifier never
wins the select: with the first non-nil exit error at position `i`, exactly
the members up to and including position `i` are inserted, each recorded
with its exit error. -/
theorem serialInit_take :
    ∀ (ms : List String) (exitErr : String → Option Err) (cl : Nat → Bool),
      (∀ k, cl k = false) →
      ∀ i, i < ms.length →
        exitErr (ms.getD i "") ≠ none →
        (∀ j, j < i → exitErr (ms.getD j "") = none) →
        serialInit ms exitErr cl =
          (ms.take (i + 1)).map (fun m => (m, exitErr m)) := by
  intro ms
  induction ms with
  | nil =>
      intro exitErr cl hcl i hi
      cases hi
  | cons m rest ih =>
      intro exitErr cl hcl i hi hbad hgood
      unfold serialInit
      rw [hcl 0]
      simp only [Bool.false_eq_true, if_false]
      cases i with
      | zero =>
          have hm : exitErr m ≠ none := hbad
          cases hE : exitErr m with
          | none => exact absurd hE hm
          | some e =>
              show [(m, some e)] = _
              simp only [List.take_succ_cons, List.take_zero, List.map_cons,
                List.map_nil]
              rw [hE]
      | succ i2 =>
          have hm : exitErr m = none := hgood 0 (Nat.succ_pos _)
          rw [hm]
          have hbad2 : exitErr (rest.getD i2 "") ≠ none := hbad
          have hgood2 : ∀ j, j < i2 → exitErr (rest.getD j "") = none :=
            fun j hj => hgood (j + 1) (by omega)
          rw [ih exitErr (fun k => cl (k + 1)) (fun k => hcl (k + 1)) i2
            (by simpa using hi) hbad2 hgood2]
          simp only [List.take_succ_cons, List.map_cons]
          rw [hm]

/-- C6: in the serial pipeline over members `[m1..mn]` whose first non-nil
exit error occurs at position `i` (no close-notifier abort), the inserted
members with their observed exits are exactly `m1..m(i+1)` paired with their
errors — each member is inserted only after its predecessor exited with a
nil error; no member after position `i` is ever inserted; and in any engine
run whose insert events all come from that pipeline, every entrance
broadcast names one of `m1..m(i+1)`, so no entrance is ever broadcast for a
later member. -/
theorem claim_C6_serial_abort (ms : List String)
    (exitErr : String → Option Err) (i : Nat) (hi : i < ms.length)
    (hbad : exitErr (ms.getD i "") ≠ none)
    (hgood : ∀ j, j < i → exitErr (ms.getD j "") = none)
    (hnd : ms.Nodup) :
    serialInit ms exitErr (fun k => false) =
      (ms.take (i + 1)).map (fun m => (m, exitErr m)) ∧
    (∀ j, i < j → j < ms.length →
      ms.getD j "" ∉ (serialInit ms exitErr (fun k => false)).map Prod.fst) ∧
    (∀ (cfg : GConfig) (es : List GEvent) (s : EState),
      runE cfg es = some s →
      (∀ n, n ∈ insertNames es →
        n ∈ (serialInit ms exitErr (fun k => false)).map Prod.fst) →
      ∀ n, n ∈ s.entLog → n ∈ ms.take (i + 1)) := by
  have hchar : serialInit ms exitErr (fun k => false) =
      (ms.take (i + 1)).map (fun m => (m, exitErr m)) :=
    serialInit_take ms exitErr (fun k => false) (fun k => rfl) i hi hbad hgood
  have hfst : (serialInit ms exitErr (fun k => false)).map Prod.fst =
      ms.take (i + 1) := by
    rw [hchar, List.map_map]
    have hcomp : (Prod.fst ∘ fun m => (m, exitErr m)) = fun m : String => m := by
      funext m
      rfl
    rw [hcomp]
    simp
  refine ⟨hchar, ?_, ?_⟩
  · intro j hij hj hmem
    rw [hfst] at hmem
    have hjd : j - (i + 1) < (ms.drop (i + 1)).length := by
      rw [List.length_drop]
      omega
    have hdropmem : ms.getD j "" ∈ ms.drop (i + 1) := by
      have hjl : (i + 1) + (j - (i + 1)) < ms.length := by omega
      have h2 : (ms.drop (i + 1))[j - (i + 1)] ∈ ms.drop (i + 1) :=
        List.getElem_mem hjd
      have h3 : (ms.drop (i + 1))[j - (i + 1)] = ms[(i + 1) + (j - (i + 1))] :=
        List.getElem_drop ms
      rw [List.getD_eq_getElem ms "" hj]
      have h4 : ms[(i + 1) + (j - (i + 1))] = ms[j] := by
        congr 1
        omega
      rw [← h4, ← h3]
      exact h2
    exact List.disjoint_take_drop hnd (Nat.le_refl (i + 1)) hmem hdropmem
  · intro cfg es s hr hins n hn
    have hlog := runE_fold_inv cfg
      (fun x => (∀ p ∈ x.procs, p.name ∈ x.admitted) ∧
        (∀ m ∈ x.entLog, m ∈ x.admitted))
      (fun a e b hPa hst => step_entlog cfg a e b hst hPa)
      es initEState s
      (by
        constructor
        · intro p hp
          simp [initEState] at hp
        · intro m hm
          simp [initEState] at hm)
      hr
    have hadm : n ∈ s.admitted := hlog.2 n hn
    have := admitted_from_inserts cfg es initEState s hr n hadm
    rcases this with hl | hr2
    · simp [initEState] at hl
    · have := hins n hr2
      rw [hfst] at this
      exact this

/-- C6 witness: members `[A, B, C]` with `B` failing — the pipeline inserts
`A` and `B` only, recording `B`'s error. -/
theorem claim_C6_serial_abort_witness :
    serialInit ["A", "B", "C"] serialErrEx (fun k => false) =
      (["A", "B", "C"].take 2).map (fun m => (m, serialErrEx m)) :=
  (claim_C6_serial_abort ["A", "B", "C"] serialErrEx 1 (by decide) (by decide)
    (by decide) (by decide)).1

end Grouper
